import Mathlib

/-!
# Verification of the stock FIFO calculator (src/app.py)

Shallow embedding of the core of `src/app.py`:

* `get_current_holdings` (lines 100-135): groups trade rows per symbol in
  input order, skips symbols whose whole-history net quantity is ≤ 0, and
  replays each symbol's transactions through a FIFO queue of lots
  (buys append a lot, sells consume lots from the head).
* `calculate_selling_price` (lines 137-159): walks the FIFO batches
  accumulating cost for `min(batch qty, qty still needed)` shares per batch,
  raises `ValueError "Not enough shares to sell that quantity."` when the
  covered quantity falls short, and otherwise returns
  `round(total_cost * (1 + profit_pct / 100) / qty_to_sell, 2)`.
* the portfolio view (lines 188-196): weighted average buy price,
  rounded to two decimals.
* `load_and_clean_csv` (lines 86-98): concatenation of the input frames
  followed by `combined_df.sort_values('Trade Date')`.  pandas'
  `sort_values` defaults to `kind='quicksort'`, which the pandas/numpy
  documentation does not guarantee to be stable, so it is embedded as a
  *relation*: any permutation of the rows that is sorted by trade date is an
  admissible output.

Quantities and prices are pandas numerics; they are modelled as exact
rationals (`ℚ`).  Trade dates only serve for ordering and are modelled as
integers.  Python's `round(x, 2)` (round-half-to-even) is modelled exactly
on `ℚ` by `pyRound2`.
-/

/-- A cleaned CSV row as produced by `load_and_clean_csv`:
`Symbol`, `Trade Date`, `Trade Type`, `Quantity`, `Price`. -/
structure Row where
  symbol : String
  tradeDate : Int
  tradeType : String
  quantity : ℚ
  price : ℚ
  deriving DecidableEq, Repr

/-- A per-symbol transaction as stored by the first loop of
`get_current_holdings`: `qty` is signed (`row['Quantity']` for a buy,
`-row['Quantity']` otherwise), with the row's price and date. -/
structure Tx where
  qty : ℚ
  price : ℚ
  date : Int
  deriving DecidableEq, Repr

/-- A FIFO batch (an open purchase lot): the dict
`{'qty': ..., 'price': ..., 'date': ...}` appended for each buy. -/
structure Lot where
  qty : ℚ
  price : ℚ
  date : Int
  deriving DecidableEq, Repr

/-- ASCII lowering of one character, as Python's `str.lower` acts on the
ASCII trade-type strings of the data. -/
def lowerChar (c : Char) : Char :=
  if 'A' ≤ c ∧ c ≤ 'Z' then Char.ofNat (c.toNat + 32) else c

/-- Python's `str.lower()` on the ASCII strings relevant here. -/
def pyLower (s : String) : String := String.mk (s.data.map lowerChar)

/-- `qty = row['Quantity'] if row['Trade Type'].lower() == 'buy' else -row['Quantity']`
(line 104), packaged with price and date (line 108). -/
def rowTx (r : Row) : Tx :=
  { qty := if pyLower r.tradeType = "buy" then r.quantity else -r.quantity
    price := r.price
    date := r.tradeDate }

/-- Append transaction `t` to the entry of key `s` of the association list
(creating the entry at the end when absent): the effect of
`holdings[symbol].append(...)` on the insertion-ordered Python dict. -/
def updateAssoc : List (String × List Tx) → String → Tx → List (String × List Tx)
  | [], s, t => [(s, [t])]
  | (k, ts) :: rest, s, t =>
      if k = s then (k, ts ++ [t]) :: rest else (k, ts) :: updateAssoc rest s t

/-- First loop of `get_current_holdings` (lines 101-108): group the rows by
symbol, keeping both the symbols' first-appearance order and each symbol's
row order. -/
def groupBySymbol (rows : List Row) : List (String × List Tx) :=
  rows.foldl (fun acc r => updateAssoc acc r.symbol (rowTx r)) []

/-- Sum of the `qty` fields of a list of lots (`sum(b['qty'] for b in fifo)`). -/
def totalQty (fifo : List Lot) : ℚ :=
  (fifo.map Lot.qty).sum

/-- Net signed quantity of a transaction list
(`net_qty = sum(t['qty'] for t in transactions)`, line 113). -/
def netQtyTx (txs : List Tx) : ℚ :=
  (txs.map Tx.qty).sum

/-- The inner `while qty_to_remove > 0 and fifo:` loop of
`get_current_holdings` (lines 125-132): consume `q` shares from the head of
the queue; a head batch with `qty > q` is reduced in place, otherwise it is
popped and consumption continues. -/
def sellFifo : ℚ → List Lot → List Lot
  | _, [] => []
  | q, b :: rest =>
      if q > 0 then
        if b.qty > q then { b with qty := b.qty - q } :: rest
        else sellFifo (q - b.qty) rest
      else b :: rest

/-- One iteration of the replay loop (lines 119-132): a positive `qty`
appends a fresh batch, otherwise `-qty` shares are removed FIFO. -/
def buildStep (fifo : List Lot) (t : Tx) : List Lot :=
  if t.qty > 0 then fifo ++ [⟨t.qty, t.price, t.date⟩]
  else sellFifo (-t.qty) fifo

/-- Replay one symbol's transactions into its FIFO queue (lines 118-132). -/
def buildFifo (txs : List Tx) : List Lot :=
  txs.foldl buildStep []

/-- `get_current_holdings` (lines 100-135): group by symbol, drop symbols
with `net_qty <= 0`, and replay the rest into FIFO queues. -/
def get_current_holdings (rows : List Row) : List (String × List Lot) :=
  (groupBySymbol rows).filterMap fun p =>
    if netQtyTx p.2 ≤ 0 then none else some (p.1, buildFifo p.2)

/-- Round a rational to the nearest integer, halves to even: the exact
behaviour of Python's builtin `round` on an exactly-represented value. -/
def roundHalfEven (y : ℚ) : ℤ :=
  let n := ⌊y⌋
  if y - n < 1/2 then n
  else if 1/2 < y - n then n + 1
  else if n % 2 = 0 then n else n + 1

/-- Python's `round(x, 2)` on an exact value. -/
def pyRound2 (x : ℚ) : ℚ :=
  (roundHalfEven (x * 100) : ℚ) / 100

/-- The `for batch in fifo_batches:` loop of `calculate_selling_price`
(lines 142-149), returning the final `(cost_price_total, qty_counted)`. -/
def calcLoop : List Lot → ℚ → ℚ → ℚ → ℚ × ℚ
  | [], _, cost, counted => (cost, counted)
  | b :: rest, needed, cost, counted =>
      if needed ≤ 0 then (cost, counted)
      else
        calcLoop rest (needed - min b.qty needed)
          (cost + min b.qty needed * b.price) (counted + min b.qty needed)

/-- The message of the `ValueError` raised at line 152. -/
def notEnoughMsg : String := "Not enough shares to sell that quantity."

/-- `calculate_selling_price` (lines 137-159): cover `qty_to_sell` shares
from the FIFO batches, fail when fewer shares are covered than requested,
otherwise price the covered cost up by `profit_pct` percent and round to
two decimals. -/
def calculate_selling_price (fifoBatches : List Lot) (qtyToSell profitPct : ℚ) :
    Except String ℚ :=
  let r := calcLoop fifoBatches qtyToSell 0 0
  if r.2 < qtyToSell then .error notEnoughMsg
  else .ok (pyRound2 (r.1 * (1 + profitPct / 100) / qtyToSell))

/-- The portfolio view's average buy price (line 191):
`sum(b['qty'] * b['price']) / total_qty`. -/
def avgBuyPrice (batches : List Lot) : ℚ :=
  (batches.map fun b => b.qty * b.price).sum / totalQty batches

/-- The spec's wording of SELL consumption: while qty-to-consume is
positive, reduce the head lot's remaining quantity by
`min(head.remaining_quantity, qty-to-consume)`; a lot whose remaining
quantity reaches 0 is retired (popped) and consumption continues with the
next lot.  Stated for comparison with the implementation's `sellFifo`. -/
def consumeSpec : ℚ → List Lot → List Lot
  | _, [] => []
  | q, b :: rest =>
      if 0 < q then
        if b.qty - min b.qty q = 0 then consumeSpec (q - min b.qty q) rest
        else { b with qty := b.qty - min b.qty q } :: rest
      else b :: rest

/-- The spec's wording of the pricing walk: oldest-first, accumulating
`cost_covered += min(lot.remaining_quantity, quantity_still_needed) × lot.unit_cost`
while quantity is still needed.  Stated for comparison with `calcLoop`. -/
def costCovered : ℚ → List Lot → ℚ
  | _, [] => 0
  | need, b :: rest =>
      if 0 < need then min b.qty need * b.price + costCovered (need - min b.qty need) rest
      else 0

/-- No sell exceeds the lots available at its point of the replay, starting
from queue `fifo`: every non-buy transaction removes at most the current
total remaining quantity. -/
def noOversellFrom : List Lot → List Tx → Prop
  | _, [] => True
  | fifo, t :: ts =>
      (0 < t.qty ∨ -t.qty ≤ totalQty fifo) ∧ noOversellFrom (buildStep fifo t) ts

/-- Sum of the buy quantities of a transaction list (the replay treats
`qty > 0` as a buy). -/
def sumBuys (txs : List Tx) : ℚ :=
  (txs.map fun t => if 0 < t.qty then t.qty else 0).sum

/-- Sum of the (positive) sell quantities of a transaction list. -/
def sumSells (txs : List Tx) : ℚ :=
  (txs.map fun t => if 0 < t.qty then 0 else -t.qty).sum

/-- Net quantity of a symbol over a whole row history: buys minus sells of
the rows of that symbol. -/
def netQtyRows (rows : List Row) (s : String) : ℚ :=
  netQtyTx ((rows.filter fun r => r.symbol = s).map rowTx)

/-- First value stored under key `s` in an association list. -/
def lookupA : List (String × List Tx) → String → Option (List Tx)
  | [], _ => none
  | (k, ts) :: rest, s => if k = s then some ts else lookupA rest s

/-- Heap-faithful version of the `for batch in fifo_batches:` loop of
`calculate_selling_price`: besides the accumulators it returns the batch
list as left in memory after the loop (each visited batch is only read,
never written, and `break` leaves the rest untouched). -/
def calcLoopSt : List Lot → ℚ → ℚ → ℚ → (ℚ × ℚ) × List Lot
  | [], _, cost, counted => ((cost, counted), [])
  | b :: rest, needed, cost, counted =>
      if needed ≤ 0 then ((cost, counted), b :: rest)
      else
        let r := calcLoopSt rest (needed - min b.qty needed)
          (cost + min b.qty needed * b.price) (counted + min b.qty needed)
        (r.1, b :: r.2)

/-- `calculate_selling_price` with the post-call state of its `fifo_batches`
argument made explicit. -/
def calculate_selling_price_st (fifoBatches : List Lot) (qtyToSell profitPct : ℚ) :
    Except String ℚ × List Lot :=
  let r := calcLoopSt fifoBatches qtyToSell 0 0
  (if r.1.2 < qtyToSell then .error notEnoughMsg
   else .ok (pyRound2 (r.1.1 * (1 + profitPct / 100) / qtyToSell)), r.2)

/-- Rows sorted by ascending `Trade Date`. -/
def sortedByDate (rows : List Row) : Prop :=
  List.Sorted (fun a b => a.tradeDate ≤ b.tradeDate) rows

/-- Admissible outputs of `combined_df.sort_values('Trade Date')` (line 98):
`sort_values` defaults to `kind='quicksort'`, whose tie order pandas/numpy
do not guarantee, so the embedding only promises a permutation of the input
that is sorted by trade date. -/
def sortValuesAdmissible (input out : List Row) : Prop :=
  input.Perm out ∧ sortedByDate out

/-- Admissible outputs of `load_and_clean_csv` (lines 86-98) on already
cleaned frames: concatenate (`pd.concat`), then sort by `Trade Date`. -/
def loadCleanAdmissible (frames : List (List Row)) (out : List Row) : Prop :=
  sortValuesAdmissible frames.flatten out

/-- Stable insertion of a row into a date-sorted list, after every row of
equal or earlier date. -/
def insertByDate (r : Row) : List Row → List Row
  | [] => [r]
  | x :: xs => if x.tradeDate ≤ r.tradeDate then x :: insertByDate r xs else r :: x :: xs

/-- The stable sort by timestamp the spec asks of the normalizer: ties keep
their original input order. -/
def stableSortByDate (rows : List Row) : List Row :=
  rows.foldl (fun acc r => insertByDate r acc) []

/-! ## Helper lemmas -/

theorem totalQty_nil : totalQty [] = 0 := rfl

theorem totalQty_cons (b : Lot) (rest : List Lot) :
    totalQty (b :: rest) = b.qty + totalQty rest := by
  simp [totalQty]

theorem totalQty_nonneg {fifo : List Lot} (h : ∀ b ∈ fifo, 0 ≤ b.qty) :
    0 ≤ totalQty fifo := by
  induction fifo with
  | nil => simp [totalQty]
  | cons b rest ih =>
      rw [totalQty_cons]
      have hb := h b (List.mem_cons_self b rest)
      have := ih fun x hx => h x (List.mem_cons_of_mem b hx)
      linarith

theorem sellFifo_eq_consumeSpec (q : ℚ) (fifo : List Lot) :
    sellFifo q fifo = consumeSpec q fifo := by
  induction fifo generalizing q with
  | nil => rfl
  | cons b rest ih =>
      by_cases hq : 0 < q
      · by_cases hbq : b.qty > q
        · have hmin : min b.qty q = q := min_eq_right (le_of_lt hbq)
          have hne : ¬ b.qty - q = 0 := by intro h; linarith
          simp [sellFifo, consumeSpec, hq, hbq, hmin, hne]
        · have hle : b.qty ≤ q := le_of_not_lt hbq
          have hmin : min b.qty q = b.qty := min_eq_left hle
          have hz : b.qty - b.qty = 0 := by ring
          simp [sellFifo, consumeSpec, hq, hbq, hmin, hz, ih]
      · simp [sellFifo, consumeSpec, hq]

theorem sellFifo_pos {fifo : List Lot} (h : ∀ b ∈ fifo, 0 < b.qty) (q : ℚ) :
    ∀ b ∈ sellFifo q fifo, 0 < b.qty := by
  induction fifo generalizing q with
  | nil => simp [sellFifo]
  | cons b rest ih =>
      intro x hx
      by_cases hq : 0 < q
      · by_cases hbq : b.qty > q
        · simp only [sellFifo, if_pos hq, if_pos hbq] at hx
          rcases List.mem_cons.1 hx with h1 | h2
          · subst h1; simp only; linarith
          · exact h x (List.mem_cons_of_mem b h2)
        · simp only [sellFifo, if_pos hq, if_neg hbq] at hx
          exact ih (fun y hy => h y (List.mem_cons_of_mem b hy)) _ x hx
      · simp only [sellFifo, if_neg hq] at hx
        exact h x hx

theorem totalQty_sellFifo {fifo : List Lot} (h : ∀ b ∈ fifo, 0 ≤ b.qty)
    {q : ℚ} (hq : 0 ≤ q) :
    totalQty (sellFifo q fifo) = max (totalQty fifo - q) 0 := by
  induction fifo generalizing q with
  | nil =>
      simp only [sellFifo, totalQty_nil]
      rw [max_eq_right (by linarith)]
  | cons b rest ih =>
      have hb := h b (List.mem_cons_self b rest)
      have hrest : ∀ x ∈ rest, 0 ≤ x.qty := fun x hx => h x (List.mem_cons_of_mem b hx)
      have htr : 0 ≤ totalQty rest := totalQty_nonneg hrest
      by_cases hq0 : 0 < q
      · by_cases hbq : b.qty > q
        · simp only [sellFifo, if_pos hq0, if_pos hbq, totalQty_cons]
          have hmax : max (totalQty (b :: rest) - q) 0 = totalQty (b :: rest) - q := by
            rw [totalQty_cons]
            exact max_eq_left (by linarith)
          rw [totalQty_cons] at hmax
          rw [hmax]
          show b.qty - q + totalQty rest = b.qty + totalQty rest - q
          ring
        · have hle : b.qty ≤ q := le_of_not_lt hbq
          simp only [sellFifo, if_pos hq0, if_neg hbq]
          rw [ih hrest (by linarith), totalQty_cons]
          congr 1
          ring
      · have : q = 0 := le_antisymm (le_of_not_lt hq0) hq
        subst this
        have hstep : sellFifo 0 (b :: rest) = b :: rest := by simp [sellFifo]
        rw [hstep, max_eq_left (by rw [totalQty_cons]; linarith)]
        ring

theorem totalQty_append (l1 l2 : List Lot) :
    totalQty (l1 ++ l2) = totalQty l1 + totalQty l2 := by
  simp [totalQty]

theorem buildStep_pos {fifo : List Lot} (h : ∀ b ∈ fifo, 0 < b.qty) (t : Tx) :
    ∀ b ∈ buildStep fifo t, 0 < b.qty := by
  intro x hx
  by_cases ht : t.qty > 0
  · simp only [buildStep, if_pos ht] at hx
    rcases List.mem_append.1 hx with h1 | h2
    · exact h x h1
    · rcases List.mem_singleton.1 h2 with rfl
      exact ht
  · simp only [buildStep, if_neg ht] at hx
    exact sellFifo_pos h _ x hx

theorem foldl_buildStep_pos (txs : List Tx) :
    ∀ fifo : List Lot, (∀ b ∈ fifo, 0 < b.qty) →
      ∀ b ∈ txs.foldl buildStep fifo, 0 < b.qty := by
  induction txs with
  | nil => intro fifo h; simpa using h
  | cons t ts ih =>
      intro fifo h
      exact ih (buildStep fifo t) (buildStep_pos h t)

theorem buildFifo_pos (txs : List Tx) : ∀ b ∈ buildFifo txs, 0 < b.qty :=
  foldl_buildStep_pos txs [] (by simp)

theorem totalQty_buildStep {fifo : List Lot} (h : ∀ b ∈ fifo, 0 ≤ b.qty)
    {t : Tx} (hno : 0 < t.qty ∨ -t.qty ≤ totalQty fifo) :
    totalQty (buildStep fifo t) = totalQty fifo + t.qty := by
  by_cases ht : t.qty > 0
  · simp only [buildStep, if_pos ht]
    rw [totalQty_append]
    simp [totalQty]
  · have hq : 0 ≤ -t.qty := by simp at ht ⊢; exact ht
    have hle : -t.qty ≤ totalQty fifo := by
      rcases hno with h1 | h2
      · exact absurd h1 ht
      · exact h2
    simp only [buildStep, if_neg ht]
    rw [totalQty_sellFifo h hq, max_eq_left (by linarith)]
    ring

theorem conservation_aux (txs : List Tx) :
    ∀ fifo : List Lot, (∀ b ∈ fifo, 0 < b.qty) → noOversellFrom fifo txs →
      totalQty (txs.foldl buildStep fifo) = totalQty fifo + netQtyTx txs := by
  induction txs with
  | nil => intro fifo _ _; simp [netQtyTx]
  | cons t ts ih =>
      intro fifo hpos hno
      obtain ⟨h1, h2⟩ := hno
      have hstep := totalQty_buildStep (fun b hb => le_of_lt (hpos b hb)) h1
      calc totalQty ((t :: ts).foldl buildStep fifo)
          = totalQty (ts.foldl buildStep (buildStep fifo t)) := by simp
        _ = totalQty (buildStep fifo t) + netQtyTx ts := ih _ (buildStep_pos hpos t) h2
        _ = totalQty fifo + t.qty + netQtyTx ts := by rw [hstep]
        _ = totalQty fifo + netQtyTx (t :: ts) := by simp [netQtyTx]; ring

theorem noOversellFrom_take (txs : List Tx) :
    ∀ (fifo : List Lot) (n : ℕ), noOversellFrom fifo txs →
      noOversellFrom fifo (txs.take n) := by
  induction txs with
  | nil => intro fifo n _; simp [noOversellFrom]
  | cons t ts ih =>
      intro fifo n h
      cases n with
      | zero => simp [noOversellFrom]
      | succ m =>
          obtain ⟨h1, h2⟩ := h
          exact ⟨h1, ih _ m h2⟩

theorem netQtyTx_eq_buys_sub_sells (txs : List Tx) :
    netQtyTx txs = sumBuys txs - sumSells txs := by
  induction txs with
  | nil => simp [netQtyTx, sumBuys, sumSells]
  | cons t ts ih =>
      simp only [netQtyTx, sumBuys, sumSells, List.map_cons, List.sum_cons] at ih ⊢
      by_cases ht : 0 < t.qty
      · rw [if_pos ht, if_pos ht, ih]; ring
      · rw [if_neg ht, if_neg ht, ih]; ring

theorem calcLoop_fst (lots : List Lot) :
    ∀ need cost counted : ℚ,
      (calcLoop lots need cost counted).1 = cost + costCovered need lots := by
  induction lots with
  | nil => intro need cost counted; simp [calcLoop, costCovered]
  | cons b rest ih =>
      intro need cost counted
      by_cases hn : need ≤ 0
      · have : ¬ 0 < need := not_lt.2 hn
        simp [calcLoop, costCovered, hn, this]
      · have hpos : 0 < need := lt_of_not_le hn
        simp only [calcLoop, if_neg hn, costCovered, if_pos hpos]
        rw [ih]
        ring

theorem calcLoop_snd (lots : List Lot) :
    ∀ need cost counted : ℚ, (∀ b ∈ lots, 0 ≤ b.qty) → 0 ≤ need →
      (calcLoop lots need cost counted).2 = counted + min (totalQty lots) need := by
  induction lots with
  | nil =>
      intro need cost counted _ hneed
      simp only [calcLoop, totalQty_nil]
      rw [min_eq_left hneed]
      ring
  | cons b rest ih =>
      intro need cost counted h hneed
      have hb := h b (List.mem_cons_self b rest)
      have hrest : ∀ x ∈ rest, 0 ≤ x.qty := fun x hx => h x (List.mem_cons_of_mem b hx)
      have htr : 0 ≤ totalQty rest := totalQty_nonneg hrest
      by_cases hn : need ≤ 0
      · have hz : need = 0 := le_antisymm hn hneed
        subst hz
        simp only [calcLoop, le_refl, if_pos]
        rw [min_eq_right (by rw [totalQty_cons]; linarith)]
        ring
      · have hpos : 0 < need := lt_of_not_le hn
        simp only [calcLoop, if_neg hn]
        rw [ih _ _ _ hrest (by have := min_le_right b.qty need; linarith)]
        by_cases hbq : b.qty ≤ need
        · rw [min_eq_left hbq, totalQty_cons]
          rcases le_or_lt (totalQty rest) (need - b.qty) with hc | hc
          · rw [min_eq_left hc, min_eq_left (by linarith)]
            ring
          · rw [min_eq_right (le_of_lt hc), min_eq_right (by linarith)]
            ring
        · have hlt : need < b.qty := lt_of_not_le hbq
          rw [min_eq_right (le_of_lt hlt), totalQty_cons]
          rw [min_eq_right (by linarith), min_eq_right (by linarith)]
          ring

theorem calculate_selling_price_ok (lots : List Lot) (q p : ℚ)
    (h : ∀ b ∈ lots, 0 ≤ b.qty) (hq : 0 < q) (hcov : q ≤ totalQty lots) :
    calculate_selling_price lots q p =
      .ok (pyRound2 (costCovered q lots * (1 + p / 100) / q)) := by
  have h2 := calcLoop_snd lots q 0 0 h (le_of_lt hq)
  rw [min_eq_right hcov, zero_add] at h2
  have h1 := calcLoop_fst lots q 0 0
  rw [zero_add] at h1
  simp only [calculate_selling_price]
  rw [h1, h2, if_neg (lt_irrefl q)]

theorem costCovered_all (lots : List Lot) :
    ∀ need : ℚ, (∀ b ∈ lots, 0 ≤ b.qty) → totalQty lots ≤ need →
      costCovered need lots = (lots.map fun b => b.qty * b.price).sum := by
  induction lots with
  | nil => intro need _ _; simp [costCovered]
  | cons b rest ih =>
      intro need h hle
      have hb := h b (List.mem_cons_self b rest)
      have hrest : ∀ x ∈ rest, 0 ≤ x.qty := fun x hx => h x (List.mem_cons_of_mem b hx)
      have htr : 0 ≤ totalQty rest := totalQty_nonneg hrest
      rw [totalQty_cons] at hle
      by_cases hn : 0 < need
      · have hbn : b.qty ≤ need := by linarith
        simp only [costCovered, if_pos hn, min_eq_left hbn, List.map_cons, List.sum_cons]
        rw [ih (need - b.qty) hrest (by linarith)]
      · have hz : need ≤ 0 := le_of_not_lt hn
        have hb0 : b.qty = 0 := le_antisymm (by linarith) hb
        have hrest0 : (rest.map fun x => x.qty * x.price).sum = 0 := by
          rw [← ih 0 hrest (by linarith)]
          cases rest <;> simp [costCovered]
        simp only [costCovered, if_neg hn, List.map_cons, List.sum_cons, hb0, hrest0]
        ring
  
theorem calcLoopSt_eq (lots : List Lot) :
    ∀ need cost counted : ℚ,
      calcLoopSt lots need cost counted = (calcLoop lots need cost counted, lots) := by
  induction lots with
  | nil => intro need cost counted; rfl
  | cons b rest ih =>
      intro need cost counted
      by_cases hn : need ≤ 0
      · simp [calcLoopSt, calcLoop, hn]
      · simp [calcLoopSt, calcLoop, hn, ih]

theorem calculate_selling_price_st_eq (lots : List Lot) (q p : ℚ) :
    calculate_selling_price_st lots q p = (calculate_selling_price lots q p, lots) := by
  simp only [calculate_selling_price_st, calculate_selling_price, calcLoopSt_eq]

theorem lookupA_updateAssoc (acc : List (String × List Tx)) (k : String) (t : Tx)
    (s : String) :
    lookupA (updateAssoc acc k t) s =
      if k = s then some (((lookupA acc s).getD []) ++ [t]) else lookupA acc s := by
  induction acc with
  | nil =>
      by_cases hks : k = s
      · subst hks; simp [updateAssoc, lookupA]
      · simp [updateAssoc, lookupA, hks]
  | cons hd rest ih =>
      obtain ⟨k0, ts⟩ := hd
      by_cases h0 : k0 = k
      · subst h0
        by_cases hks : k0 = s
        · subst hks; simp [updateAssoc, lookupA]
        · simp [updateAssoc, lookupA, hks]
      · by_cases hs : k0 = s
        · subst hs
          have hks : ¬ k = k0 := fun h => h0 h.symm
          simp [updateAssoc, lookupA, h0, hks]
        · simp [updateAssoc, lookupA, h0, hs, ih]

theorem lookupA_groupFold (rows : List Row) :
    ∀ (acc : List (String × List Tx)) (s : String),
      (lookupA (rows.foldl (fun a r => updateAssoc a r.symbol (rowTx r)) acc) s).getD [] =
        (lookupA acc s).getD [] ++ ((rows.filter fun r => r.symbol = s).map rowTx) := by
  induction rows with
  | nil => intro acc s; simp
  | cons r rest ih =>
      intro acc s
      by_cases hrs : r.symbol = s
      · simp only [List.foldl_cons, ih, lookupA_updateAssoc, if_pos hrs,
          List.filter_cons, hrs]
        simp [hrs]
      · simp only [List.foldl_cons, ih, lookupA_updateAssoc, if_neg hrs,
          List.filter_cons]
        simp [hrs]

theorem keys_updateAssoc (acc : List (String × List Tx)) (k : String) (t : Tx) :
    (updateAssoc acc k t).map Prod.fst =
      if k ∈ acc.map Prod.fst then acc.map Prod.fst else acc.map Prod.fst ++ [k] := by
  induction acc with
  | nil => simp [updateAssoc]
  | cons hd rest ih =>
      obtain ⟨k0, ts⟩ := hd
      by_cases h0 : k0 = k
      · subst h0; simp [updateAssoc]
      · have : ¬ k = k0 := fun h => h0 h.symm
        by_cases hmem : k ∈ rest.map Prod.fst
        · simp [updateAssoc, h0, ih, hmem, this]
        · simp [updateAssoc, h0, ih, hmem, this]

theorem nodup_keys_updateAssoc {acc : List (String × List Tx)}
    (h : (acc.map Prod.fst).Nodup) (k : String) (t : Tx) :
    ((updateAssoc acc k t).map Prod.fst).Nodup := by
  rw [keys_updateAssoc]
  by_cases hmem : k ∈ acc.map Prod.fst
  · rw [if_pos hmem]; exact h
  · rw [if_neg hmem]
    rw [List.nodup_append]
    exact ⟨h, List.nodup_singleton k, by simpa using fun hk => hmem hk⟩

theorem nodup_keys_groupFold (rows : List Row) :
    ∀ acc : List (String × List Tx), (acc.map Prod.fst).Nodup →
      (((rows.foldl (fun a r => updateAssoc a r.symbol (rowTx r)) acc)).map Prod.fst).Nodup := by
  induction rows with
  | nil => intro acc h; simpa using h
  | cons r rest ih =>
      intro acc h
      exact ih _ (nodup_keys_updateAssoc h r.symbol (rowTx r))

theorem nodup_keys_groupBySymbol (rows : List Row) :
    ((groupBySymbol rows).map Prod.fst).Nodup :=
  nodup_keys_groupFold rows [] (by simp)

theorem mem_iff_lookupA {acc : List (String × List Tx)}
    (hnd : (acc.map Prod.fst).Nodup) (s : String) (ts : List Tx) :
    (s, ts) ∈ acc ↔ lookupA acc s = some ts := by
  induction acc with
  | nil => simp [lookupA]
  | cons hd rest ih =>
      obtain ⟨k0, ts0⟩ := hd
      simp only [List.map_cons, List.nodup_cons] at hnd
      obtain ⟨hk0, hndrest⟩ := hnd
      by_cases hks : k0 = s
      · subst hks
        simp only [lookupA, if_pos rfl, List.mem_cons]
        constructor
        · rintro (h | h)
          · rw [Prod.mk.injEq] at h
            simp [h.2]
          · exfalso
            exact hk0 (List.mem_map.2 ⟨(k0, ts), h, rfl⟩)
        · intro h
          left
          simp at h
          rw [h]
      · simp only [lookupA, if_neg hks, List.mem_cons]
        rw [← ih hndrest]
        constructor
        · rintro (h | h)
          · rw [Prod.mk.injEq] at h
            exact absurd h.1.symm hks
          · exact h
        · intro h
          right
          exact h

theorem totalQty_pos {lots : List Lot} (h : ∀ b ∈ lots, 0 < b.qty)
    (hne : lots ≠ []) : 0 < totalQty lots := by
  obtain ⟨b, rest, rfl⟩ := List.exists_cons_of_ne_nil hne
  have hb := h b (List.mem_cons_self b rest)
  have := totalQty_nonneg fun x hx => le_of_lt (h x (List.mem_cons_of_mem b hx))
  rw [totalQty_cons]
  linarith

/-! ## Claims -/

/-- C1: a SELL consumes open lots strictly oldest-first — the replay loop
`sellFifo` coincides with the spec's consumption procedure `consumeSpec`
(reduce the head lot by `min(head.remaining, still-to-consume)`, retire it
on reaching 0, continue with the next); and after buys B1(qty=5,price=10)
then B2(qty=5,price=20), selling 7 leaves exactly the lot B2 with remaining
quantity 3, whose reported average cost is 20.00. -/
theorem claim1_sell_consumes_oldest_first :
    (∀ (q : ℚ) (fifo : List Lot), sellFifo q fifo = consumeSpec q fifo) ∧
    buildFifo [⟨5, 10, 0⟩, ⟨5, 20, 1⟩, ⟨-7, 15, 2⟩] = [⟨3, 20, 1⟩] ∧
    pyRound2 (avgBuyPrice (buildFifo [⟨5, 10, 0⟩, ⟨5, 20, 1⟩, ⟨-7, 15, 2⟩])) = 20 := by
  refine ⟨sellFifo_eq_consumeSpec, ?_, ?_⟩
  · norm_num [buildFifo, buildStep, sellFifo]
  · norm_num [buildFifo, buildStep, sellFifo, avgBuyPrice, totalQty, pyRound2, roundHalfEven]

/-- C2 (counterexample): replaying a history whose sell exceeds all open
lots does NOT fail: no Oversell error exists in the code, the excess is
silently discarded.  Concretely, buy 5, sell 7, buy 10 is an oversell
history (the second trade removes 7 from a queue holding 5), yet
`get_current_holdings` returns normally, with holding 10 (the 2 excess
shares of the sell are dropped). -/
theorem claim2_counterexample_oversell_no_error :
    ¬ noOversellFrom [] [⟨5, 10, 0⟩, ⟨-7, 12, 1⟩, ⟨10, 8, 2⟩] ∧
    get_current_holdings
        [⟨"A", 0, "buy", 5, 10⟩, ⟨"A", 1, "sell", 7, 12⟩, ⟨"A", 2, "buy", 10, 8⟩] =
      [("A", [⟨10, 8, 2⟩])] := by
  have h1 : pyLower "buy" = "buy" := by decide
  have h2 : (pyLower "sell" = "buy") = False := by decide
  constructor
  · intro h
    obtain ⟨-, hc, -⟩ := h
    rcases hc with hc | hc
    · norm_num at hc
    · norm_num [buildStep, totalQty] at hc
  · norm_num [get_current_holdings, groupBySymbol, updateAssoc, rowTx, netQtyTx,
      buildFifo, buildStep, sellFifo, List.filterMap_cons, h1, h2]

/-- C2 (amended): lot-book construction never fails and never drives a
holding negative: a sell of `q` from a queue of nonnegative lots leaves
total remaining quantity `max(total - q, 0)` — any excess beyond the open
lots is silently discarded, with no error raised. -/
theorem claim2_amended_oversell_truncated (fifo : List Lot) (q : ℚ)
    (h : ∀ b ∈ fifo, 0 ≤ b.qty) (hq : 0 ≤ q) :
    totalQty (sellFifo q fifo) = max (totalQty fifo - q) 0 :=
  totalQty_sellFifo h hq

theorem claim2_amended_witness :
    totalQty (sellFifo 7 [⟨5, 10, 0⟩]) = max (totalQty [⟨5, 10, 0⟩] - 7) 0 :=
  claim2_amended_oversell_truncated [⟨5, 10, 0⟩] 7
    (by intro b hb; rw [List.mem_singleton] at hb; subst hb; norm_num)
    (by norm_num)

/-- C3: for lots covering a positive requested quantity, the pricing
calculator returns exactly
`round(cost_covered * (1 + p/100) / quantity_to_sell, 2)`, where
`cost_covered` is the spec's oldest-first walk accumulating
`min(lot.remaining_quantity, quantity_still_needed) * lot.unit_cost`. -/
theorem claim3_pricing_formula (lots : List Lot) (q p : ℚ)
    (h : ∀ b ∈ lots, 0 ≤ b.qty) (hq : 0 < q) (hcov : q ≤ totalQty lots) :
    calculate_selling_price lots q p =
      .ok (pyRound2 (costCovered q lots * (1 + p / 100) / q)) :=
  calculate_selling_price_ok lots q p h hq hcov

theorem claim3_witness :
    costCovered 12 [⟨10, 100, 0⟩, ⟨5, 120, 1⟩] = 1240 ∧
    calculate_selling_price [⟨10, 100, 0⟩, ⟨5, 120, 1⟩] 12 10 = .ok (11367 / 100) := by
  constructor
  · norm_num [costCovered]
  · rw [claim3_pricing_formula [⟨10, 100, 0⟩, ⟨5, 120, 1⟩] 12 10
      (by intro b hb; rcases List.mem_cons.1 hb with rfl | hb; · norm_num
          rw [List.mem_singleton] at hb; subst hb; norm_num)
      (by norm_num) (by norm_num [totalQty])]
    norm_num [costCovered, pyRound2, roundHalfEven]

/-- C4: in an oversell-free history, after every prefix the total remaining
quantity of the open lots equals the prefix's buy quantities minus its sell
quantities. -/
theorem claim4_conservation (txs : List Tx) (n : ℕ) (h : noOversellFrom [] txs) :
    totalQty (buildFifo (txs.take n)) = sumBuys (txs.take n) - sumSells (txs.take n) := by
  have h1 := noOversellFrom_take txs [] n h
  have h2 := conservation_aux (txs.take n) [] (by simp) h1
  rw [buildFifo, h2, totalQty_nil, netQtyTx_eq_buys_sub_sells]
  ring

theorem claim4_witness :
    noOversellFrom [] [⟨5, 10, 0⟩, ⟨-3, 12, 1⟩, ⟨2, 11, 2⟩] ∧
    totalQty (buildFifo (([⟨5, 10, 0⟩, ⟨-3, 12, 1⟩, ⟨2, 11, 2⟩] : List Tx).take 2)) =
      sumBuys (([⟨5, 10, 0⟩, ⟨-3, 12, 1⟩, ⟨2, 11, 2⟩] : List Tx).take 2) -
        sumSells (([⟨5, 10, 0⟩, ⟨-3, 12, 1⟩, ⟨2, 11, 2⟩] : List Tx).take 2) := by
  have h : noOversellFrom [] [⟨5, 10, 0⟩, ⟨-3, 12, 1⟩, ⟨2, 11, 2⟩] := by
    norm_num [noOversellFrom, buildStep, sellFifo, totalQty]
  exact ⟨h, claim4_conservation _ 2 h⟩

/-- C5 (counterexample): the insufficient-shares failure carries neither the
requested nor the available quantity: two failing calls with different
(requested, available) pairs — (2, 1) and (7, 5) — raise the very same
`ValueError` with the fixed message
"Not enough shares to sell that quantity.". -/
theorem claim5_counterexample_error_carries_no_quantities :
    calculate_selling_price [⟨1, 10, 0⟩] 2 5 = .error notEnoughMsg ∧
    calculate_selling_price [⟨5, 10, 0⟩] 7 5 = .error notEnoughMsg ∧
    notEnoughMsg = "Not enough shares to sell that quantity." := by
  refine ⟨?_, ?_, rfl⟩ <;> norm_num [calculate_selling_price, calcLoop]

/-- C5 (amended): with current quantity n > 0, requesting exactly n succeeds
and requesting n + 1 fails — but with the constant-message `ValueError` of
line 152, which carries no quantities. -/
theorem claim5_amended_boundary (lots : List Lot) (p : ℚ)
    (h : ∀ b ∈ lots, 0 < b.qty) (hne : lots ≠ []) :
    (∃ r, calculate_selling_price lots (totalQty lots) p = .ok r) ∧
    calculate_selling_price lots (totalQty lots + 1) p = .error notEnoughMsg := by
  have h0 : ∀ b ∈ lots, 0 ≤ b.qty := fun b hb => le_of_lt (h b hb)
  have htot : 0 < totalQty lots := totalQty_pos h hne
  constructor
  · exact ⟨_, calculate_selling_price_ok lots _ p h0 htot (le_refl _)⟩
  · have h2 := calcLoop_snd lots (totalQty lots + 1) 0 0 h0 (by linarith)
    rw [min_eq_left (by linarith), zero_add] at h2
    simp only [calculate_selling_price]
    rw [h2, if_pos (by linarith)]

theorem claim5_witness :
    (∃ r, calculate_selling_price [⟨2, 10, 0⟩] (totalQty [⟨2, 10, 0⟩]) 0 = .ok r) ∧
    calculate_selling_price [⟨2, 10, 0⟩] (totalQty [⟨2, 10, 0⟩] + 1) 0 =
      .error notEnoughMsg :=
  claim5_amended_boundary [⟨2, 10, 0⟩] 0
    (by intro b hb; rw [List.mem_singleton] at hb; subst hb; norm_num)
    (by simp)

/-- C6 (counterexample): the ledger order is NOT the claimed stable sort:
`sort_values('Trade Date')` with pandas' default (unstable) quicksort only
guarantees a date-sorted permutation, and the date-sorted permutation that
swaps two equal-date trades of the same instrument is admissible while
differing from the stable order that keeps ties in input order. -/
theorem claim6_counterexample_unstable_ties :
    sortValuesAdmissible [⟨"A", 5, "buy", 1, 10⟩, ⟨"A", 5, "buy", 2, 20⟩]
        [⟨"A", 5, "buy", 2, 20⟩, ⟨"A", 5, "buy", 1, 10⟩] ∧
    ¬ ((([⟨"A", 5, "buy", 2, 20⟩, ⟨"A", 5, "buy", 1, 10⟩] : List Row).filter
          fun r => r.symbol = "A") =
        stableSortByDate (([⟨"A", 5, "buy", 1, 10⟩, ⟨"A", 5, "buy", 2, 20⟩] :
          List Row).filter fun r => r.symbol = "A")) := by
  constructor
  · constructor
    · exact List.Perm.swap _ _ _
    · simp [sortedByDate]
  · intro h
    simp [stableSortByDate, insertByDate, List.filter] at h

/-- C6 (amended): any admissible output of `load_and_clean_csv` gives each
instrument a date-sorted sequence that is a permutation of that
instrument's input rows — but the order of trades sharing a timestamp is
not guaranteed (the default sort is not stable). -/
theorem claim6_amended_sorted_per_symbol (frames : List (List Row)) (out : List Row)
    (s : String) (h : loadCleanAdmissible frames out) :
    sortedByDate (out.filter fun r => r.symbol = s) ∧
    (out.filter fun r => r.symbol = s).Perm
      (frames.flatten.filter fun r => r.symbol = s) := by
  obtain ⟨hperm, hsort⟩ := h
  constructor
  · exact List.Pairwise.sublist (List.filter_sublist out) hsort
  · exact (hperm.filter _).symm

theorem claim6_witness :
    sortedByDate ((([⟨"A", 1, "buy", 1, 10⟩, ⟨"A", 2, "sell", 1, 11⟩] : List Row)).filter
        fun r => r.symbol = "A") ∧
    ((([⟨"A", 1, "buy", 1, 10⟩, ⟨"A", 2, "sell", 1, 11⟩] : List Row)).filter
        fun r => r.symbol = "A").Perm
      (([[⟨"A", 1, "buy", 1, 10⟩], [⟨"A", 2, "sell", 1, 11⟩]] :
          List (List Row)).flatten.filter fun r => r.symbol = "A") :=
  claim6_amended_sorted_per_symbol [[⟨"A", 1, "buy", 1, 10⟩], [⟨"A", 2, "sell", 1, 11⟩]]
    [⟨"A", 1, "buy", 1, 10⟩, ⟨"A", 2, "sell", 1, 11⟩] "A"
    ⟨by simp, by simp [sortedByDate]⟩

/-- C7: for an instrument with at least one active lot, the portfolio's
rounded weighted average cost equals the pricing calculator's answer for
selling the full current quantity at 0% profit. -/
theorem claim7_avg_cost_round_trip (batches : List Lot)
    (h : ∀ b ∈ batches, 0 < b.qty) (hne : batches ≠ []) :
    calculate_selling_price batches (totalQty batches) 0 =
      .ok (pyRound2 (avgBuyPrice batches)) := by
  have h0 : ∀ b ∈ batches, 0 ≤ b.qty := fun b hb => le_of_lt (h b hb)
  have htot : 0 < totalQty batches := totalQty_pos h hne
  rw [calculate_selling_price_ok batches _ 0 h0 htot (le_refl _)]
  congr 1
  rw [costCovered_all batches _ h0 (le_refl _), avgBuyPrice]
  norm_num

theorem claim7_witness :
    calculate_selling_price [⟨2, 10, 0⟩, ⟨2, 30, 1⟩] (totalQty [⟨2, 10, 0⟩, ⟨2, 30, 1⟩]) 0 =
      .ok (pyRound2 (avgBuyPrice [⟨2, 10, 0⟩, ⟨2, 30, 1⟩])) :=
  claim7_avg_cost_round_trip [⟨2, 10, 0⟩, ⟨2, 30, 1⟩]
    (by intro b hb; rcases List.mem_cons.1 hb with rfl | hb; · norm_num
        rw [List.mem_singleton] at hb; subst hb; norm_num)
    (by simp)

/-- C8: the pricing calculator is a pure query: it leaves the lot list
exactly as it found it, and a second call on the post-call state returns
the identical result. -/
theorem claim8_pure_query (lots : List Lot) (q p : ℚ) :
    (calculate_selling_price_st lots q p).2 = lots ∧
    (calculate_selling_price_st ((calculate_selling_price_st lots q p).2) q p).1 =
      (calculate_selling_price_st lots q p).1 := by
  simp [calculate_selling_price_st_eq]

/-- C9: the engine function accepts a negative profit percentage without
rejecting it, returning the same rounded formula
`round(cost_covered * (1 + p/100) / quantity_to_sell, 2)`; the clamp to
≥ 0 exists only in the UI (`st.number_input(..., min_value=0.0)`,
line 211), not in `calculate_selling_price`. -/
theorem claim9_negative_profit_supported (lots : List Lot) (q p : ℚ)
    (_hp : p < 0) (h : ∀ b ∈ lots, 0 ≤ b.qty) (hq : 0 < q)
    (hcov : q ≤ totalQty lots) :
    calculate_selling_price lots q p =
      .ok (pyRound2 (costCovered q lots * (1 + p / 100) / q)) :=
  calculate_selling_price_ok lots q p h hq hcov

theorem claim9_witness :
    calculate_selling_price [⟨10, 100, 0⟩] 10 (-50) = .ok 50 := by
  rw [claim9_negative_profit_supported [⟨10, 100, 0⟩] 10 (-50) (by norm_num)
    (by intro b hb; rw [List.mem_singleton] at hb; subst hb; norm_num)
    (by norm_num) (by norm_num [totalQty])]
  norm_num [costCovered, pyRound2, roundHalfEven]

/-- C10: every entry of the holdings map belongs to an instrument whose
whole-history net quantity is strictly positive, and every lot of every
returned queue has strictly positive remaining quantity. -/
theorem claim10_holdings_positive (rows : List Row) (pr : String × List Lot)
    (hmem : pr ∈ get_current_holdings rows) :
    0 < netQtyRows rows pr.1 ∧ ∀ b ∈ pr.2, 0 < b.qty := by
  obtain ⟨⟨s, txs⟩, hg, hf⟩ := List.mem_filterMap.1 hmem
  by_cases hn : netQtyTx txs ≤ 0
  · simp [hn] at hf
  · simp only [hn, if_false, Option.some.injEq] at hf
    have hnd := nodup_keys_groupBySymbol rows
    have hlk := (mem_iff_lookupA hnd s txs).1 hg
    have htxs : txs = (rows.filter fun r => r.symbol = s).map rowTx := by
      have hfold := lookupA_groupFold rows [] s
      rw [groupBySymbol] at hlk
      rw [hlk] at hfold
      simpa [lookupA] using hfold
    have h1 : pr.1 = s := by rw [← hf]
    have h2 : pr.2 = buildFifo txs := by rw [← hf]
    constructor
    · rw [h1]
      have : netQtyRows rows s = netQtyTx txs := by rw [htxs]; rfl
      rw [this]
      exact lt_of_not_le hn
    · rw [h2]
      exact buildFifo_pos txs

theorem claim10_witness :
    (("A", [⟨5, 10, 0⟩]) ∈ get_current_holdings [⟨"A", 0, "buy", 5, 10⟩]) ∧
    0 < netQtyRows [⟨"A", 0, "buy", 5, 10⟩] "A" := by
  have h1 : pyLower "buy" = "buy" := by decide
  have hm : ("A", [⟨5, 10, 0⟩]) ∈ get_current_holdings [⟨"A", 0, "buy", 5, 10⟩] := by
    norm_num [get_current_holdings, groupBySymbol, updateAssoc, rowTx, netQtyTx,
      buildFifo, buildStep, List.filterMap_cons, h1]
  exact ⟨hm, (claim10_holdings_positive _ _ hm).1⟩
